import Mathlib

/-!
Shallow embedding of the `bitmap` crate (src/lib.rs): a dense word-packed
`Bitmap` and a run-length encoded `SparseBitmap`, together with get/set,
the boolean operators AND/OR/XOR/NOT and string conversion.

Machine words (`usize`) are modelled as `Nat`; fixed-width behaviour is
made explicit with a 64-bit mask where the code relies on it (`wordNot`).
Code paths that panic in Rust (the `set` bounds check, out-of-bounds
indexing, a failed `unwrap`, an invalid parse character) are modelled with
`Option`, `none` standing for the panic.
-/

/-- Number of bits of `usize`; the crate targets 64-bit platforms. -/
abbrev wordBits : Nat := 64

/-- Fixed-width bitwise NOT of a 64-bit machine word (`!chunk` in Rust). -/
def wordNot (chunk : Nat) : Nat := chunk ^^^ (2 ^ wordBits - 1)

/-- `chunks_count` from src/lib.rs. -/
def chunksCount (size chunkBitSize : Nat) : Nat := (size + chunkBitSize - 1) / chunkBitSize

/-- `bit_index` from src/lib.rs. -/
def bitIndex (position chunkBitSize : Nat) : Nat × Nat :=
  (position / chunkBitSize, position % chunkBitSize)

/-- `Bitmap` from src/lib.rs: 64-bit chunks plus the declared size. -/
structure Bitmap where
  chunks : List Nat
  size : Nat
deriving DecidableEq

/-- `Bitmap::new`. -/
def Bitmap.new (size : Nat) : Bitmap :=
  ⟨List.replicate (chunksCount size wordBits) 0, size⟩

/-- `Bitmap::get`: `(chunks[position / 64] & (1 << (position % 64))) != 0`.
The chunk access `self.chunks[chunk_index]` panics when the index is out of
the allocated range; that fault is `none`. -/
def Bitmap.get (b : Bitmap) (position : Nat) : Option Bool :=
  (b.chunks[position / wordBits]?).map
    (fun chunk => (chunk &&& (1 <<< (position % wordBits))) != 0)

/-- `Bitmap::set` (panics when `position >= size`, then dispatches to
`set_one` / `set_zero`, which index `chunks[chunk_index]`). -/
def Bitmap.set (b : Bitmap) (position : Nat) (value : Bool) : Option Bitmap :=
  if position ≥ b.size then none
  else
    match b.chunks[position / wordBits]? with
    | none => none
    | some chunk =>
      some ⟨b.chunks.set (position / wordBits)
        (if value then chunk ||| (1 <<< (position % wordBits))
         else chunk &&& wordNot (1 <<< (position % wordBits))), b.size⟩

/-- Common shape of the three binary operator impls for `&Bitmap`
(`BitAnd`, `BitOr`, `BitXor`): the result has `min` size, and each of the
`chunks_count` result words is the word-wise image of the operand words.
Rust indexes `self.chunks[id]` and `rhs.chunks[id]`, panicking when either
operand has fewer words than the result needs; that fault is `none`. -/
def Bitmap.binOp (f : Nat → Nat → Nat) (a b : Bitmap) : Option Bitmap :=
  let size := min a.size b.size
  let count := chunksCount size wordBits
  if count ≤ a.chunks.length ∧ count ≤ b.chunks.length then
    some ⟨(List.range count).map (fun id => f (a.chunks.getD id 0) (b.chunks.getD id 0)), size⟩
  else none

/-- `BitAnd for &Bitmap`. -/
def Bitmap.and (a b : Bitmap) : Option Bitmap := Bitmap.binOp (· &&& ·) a b

/-- `BitOr for &Bitmap`. -/
def Bitmap.or (a b : Bitmap) : Option Bitmap := Bitmap.binOp (· ||| ·) a b

/-- `BitXor for &Bitmap`. -/
def Bitmap.xor (a b : Bitmap) : Option Bitmap := Bitmap.binOp (· ^^^ ·) a b

/-- `Not for &Bitmap`: every word is bit-inverted, size preserved. -/
def Bitmap.not (b : Bitmap) : Bitmap :=
  ⟨b.chunks.map wordNot, b.size⟩

/-- The loop of `From<&str> for Bitmap`: characters are consumed from the
right (`value.chars().rev().enumerate()`); `'1'`/`'0'` set the bit at the
running index, any other character panics. -/
def denseFromAux : List Char → Nat → Bitmap → Option Bitmap
  | [], _, bitmap => some bitmap
  | c :: cs, index, bitmap =>
    if c = '1' then (bitmap.set index true).bind (denseFromAux cs (index + 1))
    else if c = '0' then (bitmap.set index false).bind (denseFromAux cs (index + 1))
    else none

/-- `From<&str> for Bitmap` (strings are modelled as `List Char`). -/
def Bitmap.fromString (s : List Char) : Option Bitmap :=
  denseFromAux s.reverse 0 (Bitmap.new s.length)

/-- `Run` from src/lib.rs. -/
structure Run where
  start : Nat
  length : Nat
deriving DecidableEq

/-- `Run::end` (named `stop` because `end` is a Lean keyword). -/
def Run.stop (r : Run) : Nat := r.start + r.length

/-- `Run::contains` (note: inclusive of `end()`). -/
def Run.contains (r : Run) (index : Nat) : Bool :=
  index ≥ r.start && index ≤ r.stop

/-- `Run::matches`. -/
def Run.matches (r run : Run) : Bool :=
  r.contains run.start || run.contains r.start

/-- `Run::intersect`. -/
def Run.intersect (r run : Run) : Option Run :=
  if r.matches run then
    some ⟨max r.start run.start, min r.stop run.stop - max r.start run.start⟩
  else none

/-- `Run::union`. -/
def Run.union (r run : Run) : Option Run :=
  if r.matches run then
    some ⟨min r.start run.start, max r.stop run.stop - min r.start run.start⟩
  else none

/-- `SparseBitmap` from src/lib.rs. -/
structure SparseBitmap where
  runs : List Run
  size : Nat
deriving DecidableEq

/-- `SparseBitmap::new`. -/
def SparseBitmap.new (size : Nat) : SparseBitmap := ⟨[], size⟩

/-- `SparseBitmap::get`: `position > size` returns false, else a linear
scan for a run with `run.start <= position && run.end() > position`. -/
def SparseBitmap.get (b : SparseBitmap) (position : Nat) : Bool :=
  if position > b.size then false
  else b.runs.any (fun run => run.start ≤ position && run.stop > position)

/-- `SparseBitmap::set_one`, on the runs list.  `position` collided with
the run at `index`.  The Rust code reads `current`, possibly removes an
adjacent run found by a fresh scan, and then re-indexes `runs[index]` with
`get_mut(index).unwrap()`; after a removal at a smaller index that lookup
can hit a different run or fall off the end of the list (the `unwrap`
panic, modelled as `none`). -/
def setOne (runs : List Run) (position index : Nat) : Option (List Run) :=
  match runs[index]? with
  | none => none
  | some current =>
    if position = current.start then
      if current.start = 0 then
        match runs[index]? with
        | none => none
        | some r => some (runs.set index ⟨current.start, r.length⟩)
      else
        match runs.findIdx? (fun run => run.stop = current.start - 1) with
        | some j =>
          match runs[j]? with
          | none => none
          | some removed =>
            let runs' := runs.eraseIdx j
            match runs'[index]? with
            | none => none
            | some r => some (runs'.set index ⟨removed.start, r.length⟩)
        | none =>
          match runs[index]? with
          | none => none
          | some r => some (runs.set index ⟨current.start - 1, r.length⟩)
    else if position = current.stop then
      match runs.findIdx? (fun run => run.start = current.stop + 1) with
      | some j =>
        match runs[j]? with
        | none => none
        | some removed =>
          let runs' := runs.eraseIdx j
          match runs'[index]? with
          | none => none
          | some r => some (runs'.set index ⟨r.start, r.length + (removed.length + 1)⟩)
      | none =>
        match runs[index]? with
        | none => none
        | some r => some (runs.set index ⟨r.start, r.length + 1⟩)
    else some runs

/-- `SparseBitmap::set_zero`, on the runs list.  A clear at `run.start`
shrinks from the left, at `run.end()` from the right; an interior clear
truncates the run and pushes the leftover `[position+1, end)` only when
`start < end - 1`. -/
def setZero (runs : List Run) (position index : Nat) : Option (List Run) :=
  match runs[index]? with
  | none => none
  | some run =>
    if position = run.start then some (runs.set index ⟨run.start + 1, run.length⟩)
    else if position = run.stop then some (runs.set index ⟨run.start, run.length - 1⟩)
    else
      let start := position + 1
      let stop := run.stop
      let runs' := runs.set index ⟨run.start, position - run.start⟩
      if start < stop - 1 then some (runs' ++ [⟨start, stop - start⟩])
      else some runs'

/-- `SparseBitmap::append`: union with the last run when they match,
otherwise push. -/
def SparseBitmap.append (runs : List Run) (run : Run) : List Run :=
  match runs.getLast? with
  | some last =>
    match last.union run with
    | some u => runs.dropLast ++ [u]
    | none => runs ++ [run]
  | none => runs ++ [run]

/-- `SparseBitmap::set`: bounds check, first colliding run
(`run.start <= position && run.end() >= position`), then
`set_one`/`set_zero`; with no collision, setting true appends a length-1
run and setting false is a no-op. -/
def SparseBitmap.set (b : SparseBitmap) (position : Nat) (value : Bool) : Option SparseBitmap :=
  if position ≥ b.size then none
  else
    match b.runs.findIdx? (fun run => run.start ≤ position && run.stop ≥ position) with
    | some index =>
      (if value then setOne b.runs position index else setZero b.runs position index).map
        (fun runs' => ⟨runs', b.size⟩)
    | none =>
      if value then some ⟨SparseBitmap.append b.runs ⟨position, 1⟩, b.size⟩
      else some b

/-- The merge walk of `BitAnd for &SparseBitmap`: emit the intersection of
the current pair when there is one, advance the cursor of the run with the
smaller `end()` (ties advance the right cursor). -/
def andRuns : List Run → List Run → List Run
  | run :: xs, rhsRun :: ys =>
    (match run.intersect rhsRun with
      | some i => [i]
      | none => []) ++
    (if run.stop < rhsRun.stop then andRuns xs (rhsRun :: ys) else andRuns (run :: xs) ys)
  | _, _ => []
termination_by xs ys => xs.length + ys.length

/-- `BitAnd for &SparseBitmap`. -/
def SparseBitmap.and (a b : SparseBitmap) : SparseBitmap :=
  ⟨andRuns a.runs b.runs, min a.size b.size⟩

/-- The loop of `BitOr for &SparseBitmap`: feed every run of both lists
through `append`, both cursors advancing together while both lists have
items. -/
def orRuns (acc : List Run) : List Run → List Run → List Run
  | x :: xs, y :: ys => orRuns (SparseBitmap.append (SparseBitmap.append acc x) y) xs ys
  | x :: xs, [] => orRuns (SparseBitmap.append acc x) xs []
  | [], y :: ys => orRuns (SparseBitmap.append acc y) [] ys
  | [], [] => acc
termination_by xs ys => xs.length + ys.length

/-- `BitOr for &SparseBitmap`. -/
def SparseBitmap.or (a b : SparseBitmap) : SparseBitmap :=
  ⟨orRuns [] a.runs b.runs, min a.size b.size⟩

/-- The merge walk of `BitXor for &SparseBitmap`, tracking the end of the
previously consumed run (`previous_end`).  The computed span length
`new_end - new_start` is `usize` subtraction; it is only appended when
positive. -/
def xorRuns (acc : List Run) (previousEnd : Option Nat) : List Run → List Run → List Run
  | run :: xs, rhsRun :: ys =>
    let start := run.start
    let stop := run.stop
    let rhsStart := rhsRun.start
    let rhsStop := rhsRun.stop
    let newStart :=
      match previousEnd with
      | some pe =>
        if (pe > start && pe < rhsStart) || (pe > rhsStart && pe < start) then pe
        else min start rhsStart
      | none => min start rhsStart
    let newStop := min (min (max start rhsStart) stop) rhsStop
    let length := newStop - newStart
    let acc' := if length > 0 then SparseBitmap.append acc ⟨newStart, length⟩ else acc
    if stop < rhsStop then xorRuns acc' (some stop) xs (rhsRun :: ys)
    else xorRuns acc' (some rhsStop) (run :: xs) ys
  | run :: xs, [] =>
    let acc' :=
      match previousEnd with
      | some pe => if pe < run.stop then SparseBitmap.append acc ⟨pe, run.stop - pe⟩ else acc
      | none => SparseBitmap.append acc run
    xorRuns acc' (some run.stop) xs []
  | [], rhsRun :: ys =>
    let acc' :=
      match previousEnd with
      | some pe => if pe < rhsRun.stop then SparseBitmap.append acc ⟨pe, rhsRun.stop - pe⟩ else acc
      | none => SparseBitmap.append acc rhsRun
    xorRuns acc' (some rhsRun.stop) [] ys
  | [], [] => acc
termination_by xs ys => xs.length + ys.length

/-- `BitXor for &SparseBitmap`. -/
def SparseBitmap.xor (a b : SparseBitmap) : SparseBitmap :=
  ⟨xorRuns [] none a.runs b.runs, min a.size b.size⟩

/-- The loop of `Not for &SparseBitmap`: walk the runs, emitting the gap
`[start, run.start)` whenever `start < run.start`, then advance the cursor
to `run.end()`.  No trailing gap after the last run is emitted. -/
def notRunsAux (start : Nat) : List Run → List Run
  | [] => []
  | run :: rest =>
    (if start < run.start then [⟨start, run.start - start⟩] else []) ++ notRunsAux run.stop rest

/-- `Not for &SparseBitmap`. -/
def SparseBitmap.not (b : SparseBitmap) : SparseBitmap :=
  ⟨notRunsAux 0 b.runs, b.size⟩

/-- The loop of `From<&str> for SparseBitmap`: over the reversed
characters, `'1'` opens a run when none is pending, `'0'` closes a pending
run; any other character is silently skipped.  A run still pending at the
end of the string is closed at `size`. -/
def sparseFromAux (size : Nat) : List Char → Nat → Option Nat → List Run → List Run
  | [], _, startRun, runs =>
    match startRun with
    | some start => runs ++ [⟨start, size - start⟩]
    | none => runs
  | c :: cs, index, startRun, runs =>
    if c = '1' then
      match startRun with
      | some start => sparseFromAux size cs (index + 1) (some start) runs
      | none => sparseFromAux size cs (index + 1) (some index) runs
    else if c = '0' then
      match startRun with
      | some start => sparseFromAux size cs (index + 1) none (runs ++ [⟨start, index - start⟩])
      | none => sparseFromAux size cs (index + 1) none runs
    else sparseFromAux size cs (index + 1) startRun runs

/-- `From<&str> for SparseBitmap`. -/
def SparseBitmap.fromString (s : List Char) : SparseBitmap :=
  ⟨sparseFromAux s.length s.reverse 0 none [], s.length⟩

/-- One `replace_range` step of `ToString for SparseBitmap`: overwrite the
character range `[size - (start + length), size - start)` (counted from the
left) with `'1'`s; `replace_range` is take/append/drop. -/
def spliceRun (size : Nat) (result : List Char) (run : Run) : List Char :=
  result.take (size - (run.start + run.length)) ++
    List.replicate run.length '1' ++
    result.drop (size - run.start)

/-- `ToString for SparseBitmap`: start from all `'0'`s and overwrite the
mirrored range of every run with `'1'`s. -/
def SparseBitmap.toString (b : SparseBitmap) : List Char :=
  b.runs.foldl (spliceRun b.size) (List.replicate b.size '0')

/-! ### Semantics: which positions a run list covers -/

/-- The half-open range of set bits a run denotes (same predicate as the
scan inside `SparseBitmap::get`). -/
def Run.covers (r : Run) (p : Nat) : Bool := r.start ≤ p && r.stop > p

/-- Some run of the list covers the position. -/
def coversList (runs : List Run) (p : Nat) : Bool := runs.any (fun run => run.covers p)

/-- End of the last run, `0` for the empty list. -/
def lastStop (runs : List Run) : Nat := (runs.getLastD ⟨0, 0⟩).stop

/-- The documented invariant on a sparse run list: runs in ascending start
order, pairwise disjoint and non-adjacent, all lengths positive. -/
def RunsWF (runs : List Run) : Prop :=
  runs.Pairwise (fun a b => a.stop < b.start) ∧ ∀ r ∈ runs, 0 < r.length

theorem covers_iff {r : Run} {p : Nat} :
    r.covers p = true ↔ r.start ≤ p ∧ p < r.start + r.length := by
  simp [Run.covers, Run.stop]

theorem coversList_iff {runs : List Run} {p : Nat} :
    coversList runs p = true ↔ ∃ r ∈ runs, r.start ≤ p ∧ p < r.start + r.length := by
  simp [coversList, List.any_eq_true, covers_iff]

theorem coversList_nil (p : Nat) : coversList [] p = false := rfl

theorem coversList_cons (x : Run) (xs : List Run) (p : Nat) :
    coversList (x :: xs) p = (x.covers p || coversList xs p) := by
  simp [coversList]

theorem coversList_append (xs ys : List Run) (p : Nat) :
    coversList (xs ++ ys) p = (coversList xs p || coversList ys p) := by
  simp [coversList]

theorem coversList_single (r : Run) (p : Nat) : coversList [r] p = r.covers p := by
  simp [coversList]

theorem get_eq_coversList (b : SparseBitmap) (p : Nat) :
    b.get p = (decide (p ≤ b.size) && coversList b.runs p) := by
  unfold SparseBitmap.get coversList Run.covers
  split
  · next h => simp [Nat.not_le.mpr h]
  · next h => simp [Nat.not_lt.mp h]

theorem union_covers {r q u : Run} (h : r.union q = some u) (p : Nat) :
    u.covers p = (r.covers p || q.covers p) := by
  unfold Run.union at h
  split at h
  · next hm =>
    injection h with h
    subst h
    simp only [Run.matches, Run.contains, Run.stop, Bool.or_eq_true, Bool.and_eq_true,
      decide_eq_true_eq, ge_iff_le] at hm
    rw [Bool.eq_iff_iff]
    simp only [Bool.or_eq_true, covers_iff, Run.stop] at *
    omega
  · exact absurd h (by simp)

theorem intersect_covers {r q u : Run} (h : r.intersect q = some u) (p : Nat) :
    u.covers p = (r.covers p && q.covers p) := by
  unfold Run.intersect at h
  split at h
  · next hm =>
    injection h with h
    subst h
    simp only [Run.matches, Run.contains, Run.stop, Bool.or_eq_true, Bool.and_eq_true,
      decide_eq_true_eq, ge_iff_le] at hm
    rw [Bool.eq_iff_iff]
    simp only [Bool.and_eq_true, covers_iff, Run.stop] at *
    omega
  · exact absurd h (by simp)

theorem intersect_none_covers {r q : Run} (h : r.intersect q = none) (p : Nat) :
    (r.covers p && q.covers p) = false := by
  unfold Run.intersect at h
  split at h
  · exact absurd h (by simp)
  · next hm =>
    rw [Bool.eq_false_iff]
    intro hcov
    simp only [Run.matches, Run.contains, Run.stop, Bool.or_eq_true, Bool.and_eq_true,
      decide_eq_true_eq, ge_iff_le, not_or, not_and] at hm
    simp only [Bool.and_eq_true, covers_iff, Run.stop] at hcov
    omega

theorem coversList_appendRun (runs : List Run) (run : Run) (p : Nat) :
    coversList (SparseBitmap.append runs run) p = (coversList runs p || run.covers p) := by
  unfold SparseBitmap.append
  cases hl : runs.getLast? with
  | none =>
    have h0 : runs = [] := List.getLast?_eq_none_iff.mp hl
    subst h0
    simp [coversList_append, coversList_single, coversList_nil]
  | some last =>
    have hne : runs ≠ [] := by rintro rfl; simp at hl
    have hlast : last = runs.getLast hne := by
      rw [List.getLast?_eq_getLast runs hne] at hl
      exact (Option.some.inj hl).symm
    have hstruct : runs.dropLast ++ [last] = runs := by
      rw [hlast]; exact List.dropLast_append_getLast hne
    cases hu : last.union run with
    | some u =>
      simp only [hu]
      calc coversList (runs.dropLast ++ [u]) p
          = (coversList runs.dropLast p || u.covers p) := by
            rw [coversList_append, coversList_single]
        _ = (coversList runs.dropLast p || (last.covers p || run.covers p)) := by
            rw [union_covers hu]
        _ = ((coversList runs.dropLast p || last.covers p) || run.covers p) := by
            rw [Bool.or_assoc]
        _ = (coversList (runs.dropLast ++ [last]) p || run.covers p) := by
            rw [coversList_append, coversList_single]
        _ = (coversList runs p || run.covers p) := by rw [hstruct]
    | none =>
      simp only [hu]
      rw [coversList_append, coversList_single]

/-! ### Correctness of the OR merge walk -/

theorem coversList_orRuns (acc xs ys : List Run) (p : Nat) :
    coversList (orRuns acc xs ys) p =
      (coversList acc p || coversList xs p || coversList ys p) := by
  induction acc, xs, ys using orRuns.induct with
  | case1 acc x xs y ys ih =>
    rw [orRuns, ih, coversList_appendRun, coversList_appendRun, coversList_cons, coversList_cons]
    rw [Bool.eq_iff_iff]
    simp only [Bool.or_eq_true]
    tauto
  | case2 acc x xs ih =>
    rw [orRuns, ih, coversList_appendRun, coversList_cons, coversList_nil]
    rw [Bool.eq_iff_iff]
    simp only [Bool.or_eq_true]
    tauto
  | case3 acc y ys ih =>
    rw [orRuns, ih, coversList_appendRun, coversList_cons, coversList_nil]
    rw [Bool.eq_iff_iff]
    simp only [Bool.or_eq_true]
    tauto
  | case4 acc =>
    rw [orRuns]
    simp [coversList_nil]

/-! ### Correctness of the AND merge walk (on well-ordered run lists) -/

theorem coversList_andEmit (run rhsRun : Run) (p : Nat) :
    coversList
      (match run.intersect rhsRun with
        | some i => [i]
        | none => []) p = (run.covers p && rhsRun.covers p) := by
  cases hi : run.intersect rhsRun with
  | some i =>
    simp only [hi]
    rw [coversList_single, intersect_covers hi]
  | none =>
    simp only [hi]
    rw [coversList_nil]
    exact (intersect_none_covers hi p).symm

theorem coversList_andRuns :
    ∀ (xs ys : List Run),
      xs.Pairwise (fun a b => a.stop < b.start) →
      ys.Pairwise (fun a b => a.stop < b.start) → ∀ p,
      coversList (andRuns xs ys) p = (coversList xs p && coversList ys p) := by
  intro xs ys
  induction xs, ys using andRuns.induct with
  | case1 run xs rhsRun ys =>
    intro hx hy p
    rename_i ih₁ ih₂
    rw [andRuns, coversList_append, coversList_andEmit]
    have hxs_gt : coversList xs p = true → run.stop < p := by
      intro hcov
      obtain ⟨q, hq, h1, h2⟩ := coversList_iff.mp hcov
      have h3 := (List.pairwise_cons.mp hx).1 q hq
      simp only [Run.stop] at h3 ⊢
      omega
    have hys_gt : coversList ys p = true → rhsRun.stop < p := by
      intro hcov
      obtain ⟨q, hq, h1, h2⟩ := coversList_iff.mp hcov
      have h3 := (List.pairwise_cons.mp hy).1 q hq
      simp only [Run.stop] at h3 ⊢
      omega
    by_cases h : run.stop < rhsRun.stop
    · rw [if_pos h, ih₁ (List.pairwise_cons.mp hx).2 hy p, coversList_cons, coversList_cons]
      rw [Bool.eq_iff_iff]
      simp only [Bool.or_eq_true, Bool.and_eq_true]
      constructor
      · rintro (⟨h1, h2⟩ | ⟨h1, h2⟩)
        · exact ⟨Or.inl h1, Or.inl h2⟩
        · exact ⟨Or.inr h1, h2⟩
      · rintro ⟨h1 | h1, h2 | h2⟩
        · exact Or.inl ⟨h1, h2⟩
        · exfalso
          have e1 := covers_iff.mp h1
          have e2 := hys_gt h2
          simp only [Run.stop] at h e2
          omega
        · exact Or.inr ⟨h1, Or.inl h2⟩
        · exact Or.inr ⟨h1, Or.inr h2⟩
    · rw [if_neg h, ih₂ hx (List.pairwise_cons.mp hy).2 p, coversList_cons, coversList_cons]
      rw [Bool.eq_iff_iff]
      simp only [Bool.or_eq_true, Bool.and_eq_true]
      constructor
      · rintro (⟨h1, h2⟩ | ⟨h1, h2⟩)
        · exact ⟨Or.inl h1, Or.inl h2⟩
        · exact ⟨h1, Or.inr h2⟩
      · rintro ⟨h1 | h1, h2 | h2⟩
        · exact Or.inl ⟨h1, h2⟩
        · exact Or.inr ⟨Or.inl h1, h2⟩
        · exfalso
          have e1 := covers_iff.mp h2
          have e2 := hxs_gt h1
          simp only [Run.stop] at h e2
          omega
        · exact Or.inr ⟨Or.inr h1, h2⟩
  | case2 xs ys h =>
    intro _ _ p
    cases xs with
    | nil => simp [andRuns, coversList_nil]
    | cons a as =>
      cases ys with
      | nil => simp [andRuns, coversList_nil]
      | cons b bs => exact (h a as b bs rfl rfl).elim

/-! ### Semantics of the NOT walk -/

theorem lastStop_mem {runs : List Run} (h : runs ≠ []) : runs.getLastD ⟨0, 0⟩ ∈ runs := by
  rw [List.getLastD_eq_getLast?, List.getLast?_eq_getLast runs h]
  simp only [Option.getD_some]
  exact List.getLast_mem h

theorem lastStop_cons_ne (r : Run) {rest : List Run} (h : rest ≠ []) :
    lastStop (r :: rest) = lastStop rest := by
  unfold lastStop
  rw [List.getLastD_cons, List.getLastD_eq_getLast?, List.getLastD_eq_getLast?,
    List.getLast?_eq_getLast rest h]
  simp

/-- Coverage of the gap list produced by the `Not` walk starting at cursor
`c`: exactly the positions in `[c, lastStop runs)` not covered by `runs`. -/
theorem coversList_notRunsAux :
    ∀ (runs : List Run) (c p : Nat),
      runs.Pairwise (fun a b => a.stop < b.start) →
      (∀ r ∈ runs, c ≤ r.start) →
      coversList (notRunsAux c runs) p =
        (decide (c ≤ p) && decide (p < lastStop runs) && !coversList runs p) := by
  intro runs
  induction runs with
  | nil =>
    intro c p _ _
    simp [notRunsAux, lastStop, coversList_nil, Run.stop, List.getLastD]
  | cons r rest ih =>
    intro c p hpw hc
    obtain ⟨hr, hpw'⟩ := List.pairwise_cons.mp hpw
    have hcr : c ≤ r.start := hc r (by simp)
    rw [notRunsAux, coversList_append, ih r.stop p hpw' (fun q hq => Nat.le_of_lt (hr q hq))]
    have hrest_gt : coversList rest p = true → r.stop < p := by
      intro hcov
      obtain ⟨q, hq, h1, h2⟩ := coversList_iff.mp hcov
      have h3 := hr q hq
      simp only [Run.stop] at h3 ⊢
      omega
    have hgapcov :
        coversList (if c < r.start then [(⟨c, r.start - c⟩ : Run)] else []) p =
          (decide (c ≤ p) && decide (p < r.start)) := by
      by_cases hgap : c < r.start
      · rw [if_pos hgap, coversList_single, Bool.eq_iff_iff]
        simp only [covers_iff, Bool.and_eq_true, decide_eq_true_eq]
        omega
      · rw [if_neg hgap, coversList_nil, Bool.eq_iff_iff]
        simp only [Bool.and_eq_true, decide_eq_true_eq, Bool.false_eq_true, false_iff, not_and]
        omega
    rw [hgapcov, coversList_cons]
    by_cases hrest : rest = []
    · subst hrest
      rw [coversList_nil]
      have h0 : lastStop ([] : List Run) = 0 := rfl
      have h1 : lastStop [r] = r.stop := rfl
      rw [h0, h1, Bool.eq_iff_iff]
      simp only [Bool.or_eq_true, Bool.and_eq_true, decide_eq_true_eq, Bool.not_eq_true',
        Bool.or_false, Bool.eq_false_iff, ne_eq, covers_iff, Run.stop, Bool.false_eq_true,
        Nat.not_lt_zero, and_false, false_and, or_false]
      omega
    · rw [lastStop_cons_ne r hrest]
      have hLub : r.stop < lastStop rest := by
        have hmem := lastStop_mem hrest
        have h3 := hr _ hmem
        have h4 : (rest.getLastD ⟨0, 0⟩).start ≤ (rest.getLastD ⟨0, 0⟩).stop :=
          Nat.le_add_right _ _
        unfold lastStop
        omega
      cases hB : coversList rest p with
      | true =>
        have hgt := hrest_gt hB
        simp only [Run.stop] at hgt
        rw [Bool.eq_iff_iff]
        simp only [Bool.or_true, Bool.not_true, Bool.and_false, Bool.or_eq_true,
          Bool.and_eq_true, decide_eq_true_eq, Bool.false_eq_true, or_false, and_false,
          iff_false, not_and, not_or]
        omega
      | false =>
        have hLub' := hLub
        simp only [Run.stop] at hLub'
        rw [Bool.eq_iff_iff]
        simp only [Bool.or_false, Bool.not_false, Bool.and_true, Bool.or_eq_true,
          Bool.and_eq_true, decide_eq_true_eq, Bool.not_eq_true', Bool.eq_false_iff, ne_eq,
          covers_iff, Run.stop]
        omega

/-! ### Dense bitmap: word-level semantics -/

theorem getBit_eq_testBit (chunk j : Nat) :
    ((chunk &&& (1 <<< j)) != 0) = chunk.testBit j := by
  rw [Nat.one_shiftLeft, Nat.and_two_pow]
  cases h : chunk.testBit j
  · simp
  · simp [bne_iff_ne, (Nat.two_pow_pos j).ne']

theorem wordNot_testBit (c j : Nat) (hj : j < 64) :
    (wordNot c).testBit j = !c.testBit j := by
  unfold wordNot
  rw [Nat.testBit_xor, Nat.testBit_two_pow_sub_one]
  simp [hj]

theorem Bitmap.get_eq (b : Bitmap) (p : Nat) :
    b.get p = (b.chunks[p / wordBits]?).map (fun c => c.testBit (p % wordBits)) := by
  unfold Bitmap.get
  cases b.chunks[p / wordBits]? <;> simp [getBit_eq_testBit]

theorem div_lt_chunksCount {p size : Nat} (hp : p < size) :
    p / wordBits < chunksCount size wordBits := by
  unfold chunksCount
  show p / 64 < (size + 64 - 1) / 64
  have h1 : p / 64 ≤ (size - 1) / 64 := Nat.div_le_div_right (by omega)
  rw [show size + 64 - 1 = (size - 1) + 64 by omega, Nat.add_div_right _ (by norm_num)]
  omega

theorem Bitmap.set_isSome (b : Bitmap) (p : Nat) (v : Bool) (hp : p < b.size)
    (hc : p / wordBits < b.chunks.length) : ∃ b', b.set p v = some b' := by
  unfold Bitmap.set
  rw [if_neg (by omega)]
  cases hc' : b.chunks[p / wordBits]? with
  | none => exact absurd (List.getElem?_eq_none_iff.mp hc') (by omega)
  | some chunk => exact ⟨_, rfl⟩

theorem Bitmap.set_size {b b' : Bitmap} {p : Nat} {v : Bool} (h : b.set p v = some b') :
    b'.size = b.size := by
  unfold Bitmap.set at h
  split at h
  · exact absurd h (by simp)
  · split at h
    · exact absurd h (by simp)
    · injection h with h
      subst h
      rfl

theorem Bitmap.set_chunks_length {b b' : Bitmap} {p : Nat} {v : Bool}
    (h : b.set p v = some b') : b'.chunks.length = b.chunks.length := by
  unfold Bitmap.set at h
  split at h
  · exact absurd h (by simp)
  · split at h
    · exact absurd h (by simp)
    · injection h with h
      subst h
      simp [List.length_set]

theorem Bitmap.set_get {b b' : Bitmap} {p : Nat} {v : Bool} (h : b.set p v = some b')
    (q : Nat) : b'.get q = if q = p then some v else b.get q := by
  unfold Bitmap.set at h
  split at h
  · exact absurd h (by simp)
  · cases hchunk : b.chunks[p / wordBits]? with
    | none => rw [hchunk] at h; exact absurd h (by simp)
    | some chunk =>
      rw [hchunk] at h
      simp only [Option.some.injEq] at h
      subst h
      have hplen : p / wordBits < b.chunks.length := by
        by_contra hcon
        rw [List.getElem?_eq_none_iff.mpr (by omega)] at hchunk
        exact absurd hchunk (by simp)
      rw [Bitmap.get_eq, Bitmap.get_eq]
      show ((b.chunks.set (p / wordBits)
          (if v then chunk ||| (1 <<< (p % wordBits))
           else chunk &&& wordNot (1 <<< (p % wordBits))))[q / wordBits]?).map
          (fun c => c.testBit (q % wordBits)) =
        if q = p then some v else (b.chunks[q / wordBits]?).map (fun c => c.testBit (q % wordBits))
      by_cases hdiv : q / wordBits = p / wordBits
      · rw [hdiv, List.getElem?_set_self hplen, Option.map_some', hchunk, Option.map_some']
        by_cases hq : q = p
        · subst hq
          rw [if_pos rfl]
          cases v with
          | true =>
            rw [if_pos rfl, Nat.testBit_or, Nat.one_shiftLeft, Nat.testBit_two_pow]
            simp
          | false =>
            rw [if_neg (by simp), Nat.testBit_and, Nat.one_shiftLeft,
              wordNot_testBit _ _ (Nat.mod_lt _ (by norm_num)), Nat.testBit_two_pow]
            simp
        · have hmod : p % wordBits ≠ q % wordBits := by
            intro hcon
            apply hq
            have h1 : q / 64 = p / 64 := hdiv
            have h2 : p % 64 = q % 64 := hcon
            omega
          rw [if_neg hq]
          cases v with
          | true =>
            rw [if_pos rfl, Nat.testBit_or, Nat.one_shiftLeft, Nat.testBit_two_pow]
            simp [hmod]
          | false =>
            rw [if_neg (by simp), Nat.testBit_and, Nat.one_shiftLeft,
              wordNot_testBit _ _ (Nat.mod_lt _ (by norm_num)), Nat.testBit_two_pow]
            simp [hmod]
      · have hq : q ≠ p := by
          intro hcon
          exact hdiv (by rw [hcon])
        rw [List.getElem?_set_ne (fun hcon => hdiv hcon.symm), if_neg hq]

theorem Bitmap.new_get (size q : Nat) :
    (Bitmap.new size).get q =
      if q / wordBits < chunksCount size wordBits then some false else none := by
  rw [Bitmap.get_eq]
  show ((List.replicate (chunksCount size wordBits) (0 : Nat))[q / wordBits]?).map _ = _
  rw [List.getElem?_replicate]
  by_cases h : q / wordBits < chunksCount size wordBits
  · rw [if_pos h, if_pos h, Option.map_some', Nat.zero_testBit]
  · rw [if_neg h, if_neg h, Option.map_none']

/-- Behaviour of the dense construction loop: positions `[i, i + cs.length)`
read the corresponding character, everything else is untouched. -/
theorem denseFromAux_spec :
    ∀ (cs : List Char) (i : Nat) (b : Bitmap),
      (∀ c ∈ cs, c = '0' ∨ c = '1') →
      b.size = i + cs.length →
      chunksCount b.size wordBits ≤ b.chunks.length →
      ∃ b', denseFromAux cs i b = some b' ∧ b'.size = b.size ∧
        b'.chunks.length = b.chunks.length ∧
        ∀ q, b'.get q =
          if i ≤ q ∧ q < i + cs.length then some (cs.getD (q - i) ' ' == '1') else b.get q := by
  intro cs
  induction cs with
  | nil =>
    intro i b _ _ _
    refine ⟨b, rfl, rfl, rfl, fun q => ?_⟩
    rw [if_neg (by simp only [List.length_nil]; omega)]
  | cons c cs ih =>
    intro i b hbin hsize hcount
    have hi : i < b.size := by rw [hsize]; simp only [List.length_cons]; omega
    have hidiv : i / wordBits < b.chunks.length :=
      Nat.lt_of_lt_of_le (div_lt_chunksCount hi) hcount
    have hc01 : c = '0' ∨ c = '1' := hbin c (by simp)
    obtain ⟨b₂, hset⟩ : ∃ b₂, b.set i (c == '1') = some b₂ := Bitmap.set_isSome b i _ hi hidiv
    have hsize₂ : b₂.size = b.size := Bitmap.set_size hset
    have hlen₂ : b₂.chunks.length = b.chunks.length := Bitmap.set_chunks_length hset
    obtain ⟨b', hrec, hs', hl', hget'⟩ :=
      ih (i + 1) b₂ (fun d hd => hbin d (by simp [hd]))
        (by rw [hsize₂, hsize]; simp only [List.length_cons]; omega)
        (by rw [hsize₂, hlen₂]; exact hcount)
    have hstep : denseFromAux (c :: cs) i b = some b' := by
      rcases hc01 with h0 | h1
      · subst h0
        show (if ('0' : Char) = '1' then _ else if ('0' : Char) = '0' then _ else none) = _
        rw [if_neg (by decide), if_pos rfl]
        show (b.set i false).bind (denseFromAux cs (i + 1)) = some b'
        have : (('0' : Char) == '1') = false := by decide
        rw [this] at hset
        rw [hset]
        exact hrec
      · subst h1
        show (if ('1' : Char) = '1' then _ else _) = _
        rw [if_pos rfl]
        show (b.set i true).bind (denseFromAux cs (i + 1)) = some b'
        have : (('1' : Char) == '1') = true := by decide
        rw [this] at hset
        rw [hset]
        exact hrec
    refine ⟨b', hstep, hs'.trans hsize₂, hl'.trans hlen₂, fun q => ?_⟩
    rw [hget' q, Bitmap.set_get hset q]
    by_cases hq1 : i ≤ q ∧ q < i + (c :: cs).length
    · rw [if_pos hq1]
      by_cases hq2 : i + 1 ≤ q ∧ q < i + 1 + cs.length
      · rw [if_pos hq2]
        have : q - i = (q - (i + 1)) + 1 := by omega
        rw [this, List.getD_cons_succ]
      · have hqi : q = i := by simp only [List.length_cons] at hq1 hq2; omega
        rw [if_neg hq2, hqi, if_pos rfl]
        have : q - i = 0 := by omega
        simp [hqi, List.getD_cons_zero]
    · have hq2 : ¬(i + 1 ≤ q ∧ q < i + 1 + cs.length) := by
        simp only [List.length_cons] at hq1; omega
      have hqi : q ≠ i := by
        simp only [List.length_cons] at hq1; omega
      rw [if_neg hq1, if_neg hq2, if_neg hqi]

/-- `Bitmap::from(&str)` on a binary string: never panics, and `get`
returns the character at distance `q` from the right end for `q < length`,
the zero padding inside allocated words after that, and the indexing fault
beyond the allocated words. -/
theorem Bitmap.fromString_spec (s : List Char) (hbin : ∀ c ∈ s, c = '0' ∨ c = '1') :
    ∃ b, Bitmap.fromString s = some b ∧ b.size = s.length ∧
      b.chunks.length = chunksCount s.length wordBits ∧
      ∀ q, b.get q =
        if q < s.length then some (s.reverse.getD q ' ' == '1')
        else if q / wordBits < chunksCount s.length wordBits then some false else none := by
  obtain ⟨b, hrun, hsize, hlen, hget⟩ :=
    denseFromAux_spec s.reverse 0 (Bitmap.new s.length)
      (fun c hc => hbin c (List.mem_reverse.mp hc))
      (by simp [Bitmap.new, List.length_reverse])
      (by simp [Bitmap.new, List.length_replicate])
  refine ⟨b, hrun, by simp [hsize, Bitmap.new], ?_, fun q => ?_⟩
  · rw [hlen]
    simp [Bitmap.new, List.length_replicate]
  · rw [hget q, Bitmap.new_get]
    by_cases hq : q < s.length
    · rw [if_pos (by simp [List.length_reverse]; omega), if_pos hq, Nat.sub_zero]
    · rw [if_neg (by simp [List.length_reverse]; omega), if_neg hq]

/-- Pointwise behaviour of the three dense binary operators, for any word
operation whose `testBit` distributes. -/
theorem Bitmap.binOp_get (f : Nat → Nat → Nat) (g : Bool → Bool → Bool)
    (hfg : ∀ x y j, (f x y).testBit j = g (x.testBit j) (y.testBit j)) (a b : Bitmap)
    (ha : chunksCount (min a.size b.size) wordBits ≤ a.chunks.length)
    (hb : chunksCount (min a.size b.size) wordBits ≤ b.chunks.length) :
    ∃ c, Bitmap.binOp f a b = some c ∧ c.size = min a.size b.size ∧
      ∀ p, p < min a.size b.size →
        ∃ x y, a.get p = some x ∧ b.get p = some y ∧ c.get p = some (g x y) := by
  refine ⟨⟨(List.range (chunksCount (min a.size b.size) wordBits)).map
      (fun id => f (a.chunks.getD id 0) (b.chunks.getD id 0)), min a.size b.size⟩,
    ?_, rfl, fun p hp => ?_⟩
  · unfold Bitmap.binOp
    rw [if_pos ⟨ha, hb⟩]
  · have hcount : p / wordBits < chunksCount (min a.size b.size) wordBits :=
      div_lt_chunksCount hp
    have hpa : p / wordBits < a.chunks.length := Nat.lt_of_lt_of_le hcount ha
    have hpb : p / wordBits < b.chunks.length := Nat.lt_of_lt_of_le hcount hb
    refine ⟨(a.chunks.getD (p / wordBits) 0).testBit (p % wordBits),
      (b.chunks.getD (p / wordBits) 0).testBit (p % wordBits), ?_, ?_, ?_⟩
    · rw [Bitmap.get_eq, List.getElem?_eq_getElem hpa, Option.map_some']
      rw [List.getD_eq_getElem?_getD, List.getElem?_eq_getElem hpa]
      rfl
    · rw [Bitmap.get_eq, List.getElem?_eq_getElem hpb, Option.map_some']
      rw [List.getD_eq_getElem?_getD, List.getElem?_eq_getElem hpb]
      rfl
    · rw [Bitmap.get_eq]
      show (((List.range (chunksCount (min a.size b.size) wordBits)).map
          (fun id => f (a.chunks.getD id 0) (b.chunks.getD id 0)))[p / wordBits]?).map
          (fun c => c.testBit (p % wordBits)) = _
      rw [List.getElem?_map, List.getElem?_range hcount, Option.map_some', Option.map_some',
        hfg]

/-- Dense NOT flips every readable bit (`p % 64 < 64` always holds). -/
theorem Bitmap.not_get (b : Bitmap) (p : Nat) :
    b.not.get p = (b.get p).map (fun v => !v) := by
  rw [Bitmap.get_eq, Bitmap.get_eq]
  show ((b.chunks.map wordNot)[p / wordBits]?).map _ = _
  rw [List.getElem?_map]
  cases b.chunks[p / wordBits]? with
  | none => rfl
  | some c =>
    simp only [Option.map_some']
    rw [wordNot_testBit _ _ (Nat.mod_lt _ (by norm_num))]

/-! ### Semantics of the sparse string parser -/

/-- Index of the first `'0'` of the list (length when there is none);
measures how far the pending run will still extend. -/
def firstZero : List Char → Nat
  | [] => 0
  | c :: cs => if c = '0' then 0 else firstZero cs + 1

theorem firstZero_le_length (cs : List Char) : firstZero cs ≤ cs.length := by
  induction cs with
  | nil => exact Nat.le_refl 0
  | cons c cs ih =>
    rw [firstZero]
    split
    · simp
    · simp only [List.length_cons]
      omega

theorem getD_of_lt_firstZero {cs : List Char} (hbin : ∀ c ∈ cs, c = '0' ∨ c = '1')
    {k : Nat} (hk : k < firstZero cs) : cs.getD k ' ' = '1' := by
  induction cs generalizing k with
  | nil => exact absurd hk (by simp [firstZero])
  | cons c cs ih =>
    rw [firstZero] at hk
    rcases hbin c (by simp) with h0 | h1
    · rw [if_pos h0] at hk
      exact absurd hk (by omega)
    · rw [if_neg (by rw [h1]; decide)] at hk
      cases k with
      | zero => rw [List.getD_cons_zero, h1]
      | succ k' =>
        rw [List.getD_cons_succ]
        exact ih (fun d hd => hbin d (by simp [hd])) (by omega)

theorem future_cons_iff (c : Char) (cs : List Char) (i p : Nat) (hc : c ≠ '1') :
    (∃ k, k < (c :: cs).length ∧ p = i + k ∧ (c :: cs).getD k ' ' = '1') ↔
      (∃ k, k < cs.length ∧ p = (i + 1) + k ∧ cs.getD k ' ' = '1') := by
  constructor
  · rintro ⟨k, hk, hp, hg⟩
    cases k with
    | zero => rw [List.getD_cons_zero] at hg; exact absurd hg hc
    | succ k' =>
      refine ⟨k', ?_, by omega, by rwa [List.getD_cons_succ] at hg⟩
      simp only [List.length_cons] at hk
      omega
  · rintro ⟨k, hk, hp, hg⟩
    refine ⟨k + 1, ?_, by omega, by rwa [List.getD_cons_succ]⟩
    simp only [List.length_cons]
    omega

theorem future_cons_one_iff (cs : List Char) (i p : Nat) :
    (∃ k, k < ('1' :: cs).length ∧ p = i + k ∧ ('1' :: cs).getD k ' ' = '1') ↔
      (p = i ∨ ∃ k, k < cs.length ∧ p = (i + 1) + k ∧ cs.getD k ' ' = '1') := by
  constructor
  · rintro ⟨k, hk, hp, hg⟩
    cases k with
    | zero => exact Or.inl (by omega)
    | succ k' =>
      refine Or.inr ⟨k', ?_, by omega, by rwa [List.getD_cons_succ] at hg⟩
      simp only [List.length_cons] at hk
      omega
  · rintro (hp | ⟨k, hk, hp, hg⟩)
    · exact ⟨0, by simp [List.length_cons], by omega, by rw [List.getD_cons_zero]⟩
    · refine ⟨k + 1, ?_, by omega, by rwa [List.getD_cons_succ]⟩
      simp only [List.length_cons]
      omega

/-- Coverage of the runs produced by the parser loop: what the accumulator
already covers, the pending run (open at `startRun`, closing at the first
`'0'` still to come), and the `'1'` characters still to be consumed. -/
theorem sparseFromAux_covers :
    ∀ (cs : List Char) (size i p : Nat) (startRun : Option Nat) (runs : List Run),
      (∀ c ∈ cs, c = '0' ∨ c = '1') →
      size = i + cs.length →
      (∀ st, startRun = some st → st ≤ i) →
      (coversList (sparseFromAux size cs i startRun runs) p = true ↔
        (coversList runs p = true ∨
         (∃ st, startRun = some st ∧ st ≤ p ∧ p < i + firstZero cs) ∨
         (∃ k, k < cs.length ∧ p = i + k ∧ cs.getD k ' ' = '1'))) := by
  intro cs
  induction cs with
  | nil =>
    intro size i p startRun runs _ hsize hst
    have hsizei : size = i := by
      simp only [List.length_nil] at hsize
      omega
    cases startRun with
    | none => simp [sparseFromAux]
    | some st =>
      have hsti : st ≤ i := hst st rfl
      show coversList (runs ++ [Run.mk st (size - st)]) p = true ↔ _
      rw [coversList_append, Bool.or_eq_true, coversList_single, covers_iff]
      dsimp only
      constructor
      · rintro (h | ⟨h1, h2⟩)
        · exact Or.inl h
        · exact Or.inr (Or.inl ⟨st, rfl, h1, by rw [firstZero]; omega⟩)
      · rintro (h | ⟨st', hst', h1, h2⟩ | ⟨k, hk, _, _⟩)
        · exact Or.inl h
        · injection hst' with he
          subst he
          rw [firstZero] at h2
          exact Or.inr ⟨h1, by omega⟩
        · exact absurd hk (by simp)
  | cons c cs ih =>
    intro size i p startRun runs hbin hsize hst
    have hbin' : ∀ d ∈ cs, d = '0' ∨ d = '1' := fun d hd => hbin d (by simp [hd])
    have hsize' : size = (i + 1) + cs.length := by
      simp only [List.length_cons] at hsize
      omega
    have hfz := firstZero_le_length cs
    rcases hbin c (by simp) with h0 | h1
    · subst h0
      have hfz0 : firstZero ('0' :: cs) = 0 := by rw [firstZero, if_pos rfl]
      cases startRun with
      | none =>
        rw [show sparseFromAux size ('0' :: cs) i none runs =
            sparseFromAux size cs (i + 1) none runs from by simp [sparseFromAux]]
        rw [ih size (i + 1) p none runs hbin' hsize' (fun st' hst' => Option.noConfusion hst')]
        rw [future_cons_iff '0' cs i p (by decide)]
        constructor
        · rintro (h | ⟨st', hst', -⟩ | h)
          · exact Or.inl h
          · exact Option.noConfusion hst'
          · exact Or.inr (Or.inr h)
        · rintro (h | ⟨st', hst', -⟩ | h)
          · exact Or.inl h
          · exact Option.noConfusion hst'
          · exact Or.inr (Or.inr h)
      | some st =>
        have hsti : st ≤ i := hst st rfl
        rw [show sparseFromAux size ('0' :: cs) i (some st) runs =
            sparseFromAux size cs (i + 1) none (runs ++ [Run.mk st (i - st)]) from by
          simp [sparseFromAux]]
        rw [ih size (i + 1) p none (runs ++ [Run.mk st (i - st)]) hbin' hsize'
          (fun st' hst' => Option.noConfusion hst')]
        rw [future_cons_iff '0' cs i p (by decide)]
        rw [coversList_append, Bool.or_eq_true, coversList_single, covers_iff]
        dsimp only
        constructor
        · rintro ((h | ⟨h1, h2⟩) | ⟨st', hst', -⟩ | h)
          · exact Or.inl h
          · exact Or.inr (Or.inl ⟨st, rfl, h1, by rw [hfz0]; omega⟩)
          · exact Option.noConfusion hst'
          · exact Or.inr (Or.inr h)
        · rintro (h | ⟨st', hst', h1, h2⟩ | h)
          · exact Or.inl (Or.inl h)
          · injection hst' with he
            subst he
            rw [hfz0] at h2
            exact Or.inl (Or.inr ⟨h1, by omega⟩)
          · exact Or.inr (Or.inr h)
    · subst h1
      have hfz1 : firstZero ('1' :: cs) = firstZero cs + 1 := by
        rw [firstZero, if_neg (by decide)]
      cases startRun with
      | none =>
        rw [show sparseFromAux size ('1' :: cs) i none runs =
            sparseFromAux size cs (i + 1) (some i) runs from by simp [sparseFromAux]]
        rw [ih size (i + 1) p (some i) runs hbin' hsize'
          (fun st' hst' => by injection hst' with he; omega)]
        rw [future_cons_one_iff cs i p]
        constructor
        · rintro (h | ⟨st', hst', h1, h2⟩ | h)
          · exact Or.inl h
          · injection hst' with he
            subst he
            by_cases hpi : p = i
            · exact Or.inr (Or.inr (Or.inl hpi))
            · exact Or.inr (Or.inr (Or.inr ⟨p - (i + 1), by omega, by omega,
                getD_of_lt_firstZero hbin' (by omega)⟩))
          · exact Or.inr (Or.inr (Or.inr h))
        · rintro (h | ⟨st', hst', -⟩ | hpi | h)
          · exact Or.inl h
          · exact Option.noConfusion hst'
          · exact Or.inr (Or.inl ⟨i, rfl, by omega, by omega⟩)
          · obtain ⟨k, hk, hp, hg⟩ := h
            exact Or.inr (Or.inr ⟨k, hk, hp, hg⟩)
      | some st =>
        have hsti : st ≤ i := hst st rfl
        rw [show sparseFromAux size ('1' :: cs) i (some st) runs =
            sparseFromAux size cs (i + 1) (some st) runs from by simp [sparseFromAux]]
        rw [ih size (i + 1) p (some st) runs hbin' hsize'
          (fun st' hst' => by injection hst' with he; omega)]
        rw [future_cons_one_iff cs i p]
        constructor
        · rintro (h | ⟨st', hst', h1, h2⟩ | h)
          · exact Or.inl h
          · injection hst' with he
            subst he
            exact Or.inr (Or.inl ⟨_, rfl, h1, by rw [hfz1]; omega⟩)
          · exact Or.inr (Or.inr (Or.inr h))
        · rintro (h | ⟨st', hst', h1, h2⟩ | hpi | h)
          · exact Or.inl h
          · injection hst' with he
            subst he
            rw [hfz1] at h2
            exact Or.inr (Or.inl ⟨_, rfl, h1, by omega⟩)
          · exact Or.inr (Or.inl ⟨st, rfl, by omega, by omega⟩)
          · exact Or.inr (Or.inr h)

/-- The parser loop maintains the run-list invariant: ascending, disjoint,
non-adjacent, positive lengths, all within `size`. -/
theorem sparseFromAux_wf :
    ∀ (cs : List Char) (size i : Nat) (startRun : Option Nat) (runs : List Run),
      size = i + cs.length →
      runs.Pairwise (fun a b => a.stop < b.start) →
      (∀ r ∈ runs, 0 < r.length) →
      (∀ st, startRun = some st → st < i ∧ ∀ r ∈ runs, r.stop < st) →
      (startRun = none → ∀ r ∈ runs, r.stop < i) →
      RunsWF (sparseFromAux size cs i startRun runs) ∧
        ∀ r ∈ sparseFromAux size cs i startRun runs, r.stop ≤ size := by
  intro cs
  induction cs with
  | nil =>
    intro size i startRun runs hsize hpw hpos hsome hnone
    have hsizei : size = i := by
      simp only [List.length_nil] at hsize
      omega
    cases startRun with
    | none =>
      refine ⟨⟨hpw, hpos⟩, fun r hr => ?_⟩
      have := hnone rfl r hr
      omega
    | some st =>
      obtain ⟨hsti, hstops⟩ := hsome st rfl
      show RunsWF (runs ++ [Run.mk st (size - st)]) ∧ _
      refine ⟨⟨?_, ?_⟩, fun r hr => ?_⟩
      · rw [List.pairwise_append]
        refine ⟨hpw, by simp, fun a ha b hb => ?_⟩
        simp only [List.mem_singleton] at hb
        subst hb
        exact hstops a ha
      · intro r hr
        rcases List.mem_append.mp hr with h | h
        · exact hpos r h
        · simp only [List.mem_singleton] at h
          subst h
          show 0 < size - st
          omega
      · rcases List.mem_append.mp hr with h | h
        · have := hstops r h
          omega
        · simp only [List.mem_singleton] at h
          subst h
          show st + (size - st) ≤ size
          omega
  | cons c cs ih =>
    intro size i startRun runs hsize hpw hpos hsome hnone
    have hsize' : size = (i + 1) + cs.length := by
      simp only [List.length_cons] at hsize
      omega
    by_cases h1 : c = '1'
    · subst h1
      cases startRun with
      | none =>
        rw [show sparseFromAux size ('1' :: cs) i none runs =
            sparseFromAux size cs (i + 1) (some i) runs from by simp [sparseFromAux]]
        exact ih size (i + 1) (some i) runs hsize' hpw hpos
          (fun st hst => by
            injection hst with he
            subst he
            exact ⟨by omega, hnone rfl⟩)
          (fun hcon => Option.noConfusion hcon)
      | some st =>
        obtain ⟨hsti, hstops⟩ := hsome st rfl
        rw [show sparseFromAux size ('1' :: cs) i (some st) runs =
            sparseFromAux size cs (i + 1) (some st) runs from by simp [sparseFromAux]]
        exact ih size (i + 1) (some st) runs hsize' hpw hpos
          (fun st' hst' => by
            injection hst' with he
            subst he
            exact ⟨by omega, hstops⟩)
          (fun hcon => Option.noConfusion hcon)
    · by_cases h0 : c = '0'
      · subst h0
        cases startRun with
        | none =>
          rw [show sparseFromAux size ('0' :: cs) i none runs =
              sparseFromAux size cs (i + 1) none runs from by simp [sparseFromAux]]
          exact ih size (i + 1) none runs hsize' hpw hpos
            (fun st hst => Option.noConfusion hst)
            (fun _ r hr => by have := hnone rfl r hr; omega)
        | some st =>
          obtain ⟨hsti, hstops⟩ := hsome st rfl
          rw [show sparseFromAux size ('0' :: cs) i (some st) runs =
              sparseFromAux size cs (i + 1) none (runs ++ [Run.mk st (i - st)]) from by
            simp [sparseFromAux]]
          refine ih size (i + 1) none (runs ++ [Run.mk st (i - st)]) hsize' ?_ ?_
            (fun st' hst' => Option.noConfusion hst') ?_
          · rw [List.pairwise_append]
            refine ⟨hpw, by simp, fun a ha b hb => ?_⟩
            simp only [List.mem_singleton] at hb
            subst hb
            exact hstops a ha
          · intro r hr
            rcases List.mem_append.mp hr with h | h
            · exact hpos r h
            · simp only [List.mem_singleton] at h
              subst h
              show 0 < i - st
              omega
          · intro _ r hr
            rcases List.mem_append.mp hr with h | h
            · have := hstops r h
              omega
            · simp only [List.mem_singleton] at h
              subst h
              show Run.stop (Run.mk st (i - st)) < i + 1
              show st + (i - st) < i + 1
              omega
      · cases startRun with
        | none =>
          rw [show sparseFromAux size (c :: cs) i none runs =
              sparseFromAux size cs (i + 1) none runs from by simp [sparseFromAux, h1, h0]]
          exact ih size (i + 1) none runs hsize' hpw hpos
            (fun st hst => Option.noConfusion hst)
            (fun _ r hr => by have := hnone rfl r hr; omega)
        | some st =>
          obtain ⟨hsti, hstops⟩ := hsome st rfl
          rw [show sparseFromAux size (c :: cs) i (some st) runs =
              sparseFromAux size cs (i + 1) (some st) runs from by simp [sparseFromAux, h1, h0]]
          exact ih size (i + 1) (some st) runs hsize' hpw hpos
            (fun st' hst' => by
              injection hst' with he
              subst he
              exact ⟨by omega, hstops⟩)
            (fun hcon => Option.noConfusion hcon)

/-- `SparseBitmap::from(&str)` always builds a well-formed run list whose
runs end within the declared size. -/
theorem SparseBitmap.fromString_wf (s : List Char) :
    RunsWF (SparseBitmap.fromString s).runs ∧
      ∀ r ∈ (SparseBitmap.fromString s).runs, r.stop ≤ s.length := by
  exact sparseFromAux_wf s.reverse s.length 0 none []
    (by simp [List.length_reverse]) (by simp) (by simp)
    (fun st hst => Option.noConfusion hst) (by simp)

/-- `SparseBitmap::from(&str)` on a binary string: `get p` is exactly the
character at distance `p` from the right end, false at or past the length. -/
theorem SparseBitmap.fromString_get (s : List Char) (hbin : ∀ c ∈ s, c = '0' ∨ c = '1')
    (p : Nat) :
    (SparseBitmap.fromString s).get p =
      (decide (p < s.length) && (s.reverse.getD p ' ' == '1')) := by
  rw [get_eq_coversList]
  show (decide (p ≤ s.length) && coversList (sparseFromAux s.length s.reverse 0 none []) p) = _
  have hcov := sparseFromAux_covers s.reverse s.length 0 p none []
    (fun c hc => hbin c (List.mem_reverse.mp hc)) (by simp [List.length_reverse])
    (fun st hst => Option.noConfusion hst)
  rw [Bool.eq_iff_iff]
  simp only [Bool.and_eq_true, decide_eq_true_eq]
  constructor
  · rintro ⟨hps, hc⟩
    rcases (hcov.mp hc) with h | ⟨st, hst, -⟩ | ⟨k, hk, hp, hg⟩
    · exact absurd h (by rw [coversList_nil]; simp)
    · exact Option.noConfusion hst
    · subst hp
      simp only [List.length_reverse] at hk
      refine ⟨by omega, ?_⟩
      rw [Nat.zero_add, beq_iff_eq]
      exact hg
  · rintro ⟨hps, hg⟩
    refine ⟨by omega, hcov.mpr (Or.inr (Or.inr ⟨p, ?_, by omega, ?_⟩))⟩
    · rw [List.length_reverse]
      omega
    · exact beq_iff_eq.mp hg

/-! ### Semantics of the sparse string renderer -/

theorem spliceRun_length (size : Nat) (result : List Char) (run : Run)
    (hlen : result.length = size) (hstop : run.stop ≤ size) :
    (spliceRun size result run).length = size := by
  have hss : run.start + run.length ≤ size := hstop
  unfold spliceRun
  rw [List.length_append, List.length_append, List.length_take, List.length_replicate,
    List.length_drop, hlen]
  simp only [min_def]
  split <;> omega

theorem spliceRun_getElem (size : Nat) (result : List Char) (run : Run) (j : Nat)
    (hlen : result.length = size) (hstop : run.stop ≤ size) :
    (spliceRun size result run)[j]? =
      if size - run.stop ≤ j ∧ j < size - run.start then some '1' else result[j]? := by
  have hss : run.start + run.length ≤ size := hstop
  have hstopeq : run.stop = run.start + run.length := rfl
  unfold spliceRun
  have hts : (result.take (size - (run.start + run.length))).length =
      size - (run.start + run.length) := by
    rw [List.length_take, hlen]
    omega
  rw [List.getElem?_append, List.length_append, hts, List.length_replicate]
  by_cases h1 : j < size - (run.start + run.length) + run.length
  · rw [if_pos h1, List.getElem?_append, hts]
    by_cases h2 : j < size - (run.start + run.length)
    · rw [if_pos h2, List.getElem?_take, if_pos h2, if_neg (by omega)]
    · rw [if_neg h2, List.getElem?_replicate, if_pos (by omega), if_pos (by omega)]
  · rw [if_neg h1, List.getElem?_drop, if_neg (by omega)]
    congr 1
    omega

theorem foldl_spliceRun_spec (runs : List Run) (size : Nat) :
    ∀ result, result.length = size → (∀ r ∈ runs, r.stop ≤ size) →
      (runs.foldl (spliceRun size) result).length = size ∧
      ∀ j, (runs.foldl (spliceRun size) result)[j]? =
        if ∃ r ∈ runs, size - r.stop ≤ j ∧ j < size - r.start then some '1'
        else result[j]? := by
  induction runs with
  | nil =>
    intro result hlen _
    exact ⟨hlen, fun j => by rw [List.foldl_nil, if_neg (by simp)]⟩
  | cons r rest ih =>
    intro result hlen hstops
    rw [List.foldl_cons]
    have hr : r.stop ≤ size := hstops r (by simp)
    have hlen' : (spliceRun size result r).length = size := spliceRun_length _ _ _ hlen hr
    obtain ⟨hl, hj⟩ := ih (spliceRun size result r) hlen' (fun q hq => hstops q (by simp [hq]))
    refine ⟨hl, fun j => ?_⟩
    rw [hj j, spliceRun_getElem _ _ _ _ hlen hr]
    by_cases hex : ∃ q ∈ rest, size - q.stop ≤ j ∧ j < size - q.start
    · rw [if_pos hex, if_pos ?_]
      obtain ⟨q, hq, hjq⟩ := hex
      exact ⟨q, by simp [hq], hjq⟩
    · rw [if_neg hex]
      by_cases hrj : size - r.stop ≤ j ∧ j < size - r.start
      · rw [if_pos hrj, if_pos ⟨r, by simp, hrj⟩]
      · rw [if_neg hrj, if_neg ?_]
        rintro ⟨q, hq, hjq⟩
        rcases List.mem_cons.mp hq with h | h
        · subst h
          exact hrj hjq
        · exact hex ⟨q, h, hjq⟩

/-- Round trip: rendering the parse of a binary string gives the string back. -/
theorem toString_fromString (s : List Char) (hbin : ∀ c ∈ s, c = '0' ∨ c = '1') :
    SparseBitmap.toString (SparseBitmap.fromString s) = s := by
  obtain ⟨⟨hpw, hpos⟩, hstops⟩ := SparseBitmap.fromString_wf s
  obtain ⟨hlen, hj⟩ :=
    foldl_spliceRun_spec (SparseBitmap.fromString s).runs s.length
      (List.replicate s.length '0') (List.length_replicate _ _) hstops
  apply List.ext_getElem?
  intro j
  show ((SparseBitmap.fromString s).runs.foldl (spliceRun s.length)
    (List.replicate s.length '0'))[j]? = s[j]?
  rw [hj j]
  by_cases hjs : j < s.length
  · have hcovIff :
        (∃ r ∈ (SparseBitmap.fromString s).runs,
            s.length - r.stop ≤ j ∧ j < s.length - r.start)
          ↔ coversList (SparseBitmap.fromString s).runs (s.length - 1 - j) = true := by
      rw [coversList_iff]
      constructor
      · rintro ⟨r, hr, h1, h2⟩
        have hrs := hstops r hr
        have hstopeq : r.stop = r.start + r.length := rfl
        exact ⟨r, hr, by omega, by omega⟩
      · rintro ⟨r, hr, h1, h2⟩
        have hrs := hstops r hr
        have hstopeq : r.stop = r.start + r.length := rfl
        exact ⟨r, hr, by omega, by omega⟩
    have hsjD : s[j] = s.getD j ' ' := by
      rw [List.getD_eq_getElem?_getD, List.getElem?_eq_getElem hjs]
      rfl
    have hmem : s.getD j ' ' ∈ s := by
      rw [← hsjD]
      exact List.getElem_mem hjs
    have hrev : s.reverse.getD (s.length - 1 - j) ' ' = s.getD j ' ' := by
      have h1 : s.length - 1 - (s.length - 1 - j) = j := by omega
      rw [List.getD_eq_getElem?_getD, List.getD_eq_getElem?_getD,
        List.getElem?_reverse (show s.length - 1 - j < s.length by omega), h1]
    have hcoveq : coversList (SparseBitmap.fromString s).runs (s.length - 1 - j) =
        (s.getD j ' ' == '1') := by
      have hget := SparseBitmap.fromString_get s hbin (s.length - 1 - j)
      rw [get_eq_coversList] at hget
      rw [show (SparseBitmap.fromString s).size = s.length from rfl] at hget
      rw [decide_eq_true (show s.length - 1 - j ≤ s.length by omega), Bool.true_and] at hget
      rw [decide_eq_true (show s.length - 1 - j < s.length by omega), Bool.true_and] at hget
      rw [hrev] at hget
      exact hget
    rcases hbin _ hmem with h0 | h1
    · have hcovf : coversList (SparseBitmap.fromString s).runs (s.length - 1 - j) = false := by
        rw [hcoveq, h0]
        rfl
      rw [if_neg (fun hx => absurd (hcovIff.mp hx) (by rw [hcovf]; simp)),
        List.getElem?_replicate, if_pos hjs, List.getElem?_eq_getElem hjs, hsjD, h0]
    · have hcovt : coversList (SparseBitmap.fromString s).runs (s.length - 1 - j) = true := by
        rw [hcoveq, h1]
        rfl
      rw [if_pos (hcovIff.mpr hcovt), List.getElem?_eq_getElem hjs, hsjD, h1]
  · rw [if_neg ?_, List.getElem?_replicate, if_neg hjs,
      List.getElem?_eq_none_iff.mpr (by omega)]
    rintro ⟨r, hr, h1, h2⟩
    have hrs := hstops r hr
    omega

/-! ### Double negation on the sparse representation -/

theorem notRunsAux_notRunsAux (rest : List Run) :
    ∀ s : Run, 0 < s.length → (s :: rest).Pairwise (fun a b => a.stop < b.start) →
      (∀ r ∈ rest, 0 < r.length) →
      notRunsAux s.start (notRunsAux s.stop rest) = (s :: rest).dropLast := by
  induction rest with
  | nil =>
    intro s _ _ _
    rfl
  | cons t rest ih =>
    intro s hpos hpw hposall
    have hst : s.stop < t.start := (List.pairwise_cons.mp hpw).1 t (by simp)
    rw [show notRunsAux s.stop (t :: rest) =
        Run.mk s.stop (t.start - s.stop) :: notRunsAux t.stop rest from by
      rw [notRunsAux, if_pos hst, List.singleton_append]]
    rw [notRunsAux]
    rw [if_pos (show s.start < (Run.mk s.stop (t.start - s.stop)).start from by
      show s.start < s.stop
      show s.start < s.start + s.length
      omega)]
    rw [show (Run.mk s.stop (t.start - s.stop)).stop = t.start from by
      show s.stop + (t.start - s.stop) = t.start
      omega]
    rw [ih t (hposall t (by simp)) (List.pairwise_cons.mp hpw).2
      (fun r hr => hposall r (by simp [hr]))]
    rw [List.singleton_append, List.dropLast_cons₂]
    congr 1
    show Run.mk s.start ((Run.mk s.stop (t.start - s.stop)).start - s.start) = s
    show Run.mk s.start (s.stop - s.start) = s
    have : s.stop - s.start = s.length := by
      show s.start + s.length - s.start = s.length
      omega
    rw [this]

/-- Applying the sparse NOT walk twice deletes exactly the last run of a
well-formed run list. -/
theorem notRuns_notRuns {runs : List Run} (hwf : RunsWF runs) :
    notRunsAux 0 (notRunsAux 0 runs) = runs.dropLast := by
  obtain ⟨hpw, hpos⟩ := hwf
  cases runs with
  | nil => rfl
  | cons s rest =>
    have hmain := notRunsAux_notRunsAux rest s (hpos s (by simp)) hpw
      (fun r hr => hpos r (by simp [hr]))
    by_cases hs : 0 < s.start
    · rw [show notRunsAux 0 (s :: rest) =
          Run.mk 0 (s.start - 0) :: notRunsAux s.stop rest from by
        rw [notRunsAux, if_pos hs, List.singleton_append]]
      rw [notRunsAux, if_neg (by show ¬ 0 < (Run.mk 0 (s.start - 0)).start; simp)]
      rw [show (Run.mk 0 (s.start - 0)).stop = s.start from by
        show 0 + (s.start - 0) = s.start
        omega]
      rw [List.nil_append]
      exact hmain
    · have h0 : s.start = 0 := by omega
      rw [show notRunsAux 0 (s :: rest) = notRunsAux s.stop rest from by
        rw [notRunsAux, if_neg hs, List.nil_append]]
      rw [h0] at hmain
      exact hmain

/-! ### Glue lemmas connecting the two representations -/

theorem chunksCount_mono {a b : Nat} (h : a ≤ b) :
    chunksCount a wordBits ≤ chunksCount b wordBits :=
  Nat.div_le_div_right (by omega)

theorem fromString_covers_eq_get (u : List Char) (p : Nat) (hpu : p ≤ u.length) :
    coversList (SparseBitmap.fromString u).runs p = (SparseBitmap.fromString u).get p := by
  rw [get_eq_coversList, show (SparseBitmap.fromString u).size = u.length from rfl,
    decide_eq_true hpu, Bool.true_and]

/-- Dense construction agrees with the sparse one at every position below
the string length. -/
theorem dense_fromString_get (s : List Char) (hs : ∀ c ∈ s, c = '0' ∨ c = '1') :
    ∃ a, Bitmap.fromString s = some a ∧ a.size = s.length ∧
      a.chunks.length = chunksCount s.length wordBits ∧
      ∀ p, p < s.length → a.get p = some ((SparseBitmap.fromString s).get p) := by
  obtain ⟨a, ha, h1, h2, hget⟩ := Bitmap.fromString_spec s hs
  refine ⟨a, ha, h1, h2, fun p hp => ?_⟩
  rw [hget p, if_pos hp, SparseBitmap.fromString_get s hs p, decide_eq_true hp, Bool.true_and]

theorem sparse_and_get (s t : List Char) (p : Nat) (hp : p < min s.length t.length) :
    (SparseBitmap.and (SparseBitmap.fromString s) (SparseBitmap.fromString t)).get p =
      ((SparseBitmap.fromString s).get p && (SparseBitmap.fromString t).get p) := by
  rw [get_eq_coversList,
    show (SparseBitmap.and (SparseBitmap.fromString s) (SparseBitmap.fromString t)).size =
      min s.length t.length from rfl,
    decide_eq_true (by omega : p ≤ min s.length t.length), Bool.true_and]
  rw [show (SparseBitmap.and (SparseBitmap.fromString s) (SparseBitmap.fromString t)).runs =
    andRuns (SparseBitmap.fromString s).runs (SparseBitmap.fromString t).runs from rfl]
  rw [coversList_andRuns _ _ (SparseBitmap.fromString_wf s).1.1
    (SparseBitmap.fromString_wf t).1.1 p]
  rw [fromString_covers_eq_get s p (by omega), fromString_covers_eq_get t p (by omega)]

theorem sparse_or_get (s t : List Char) (p : Nat) (hp : p < min s.length t.length) :
    (SparseBitmap.or (SparseBitmap.fromString s) (SparseBitmap.fromString t)).get p =
      ((SparseBitmap.fromString s).get p || (SparseBitmap.fromString t).get p) := by
  rw [get_eq_coversList,
    show (SparseBitmap.or (SparseBitmap.fromString s) (SparseBitmap.fromString t)).size =
      min s.length t.length from rfl,
    decide_eq_true (by omega : p ≤ min s.length t.length), Bool.true_and]
  rw [show (SparseBitmap.or (SparseBitmap.fromString s) (SparseBitmap.fromString t)).runs =
    orRuns [] (SparseBitmap.fromString s).runs (SparseBitmap.fromString t).runs from rfl]
  rw [coversList_orRuns, coversList_nil, Bool.false_or]
  rw [fromString_covers_eq_get s p (by omega), fromString_covers_eq_get t p (by omega)]

/-! ## The claims -/

/-- C1 (code bug): get/set consistency fails on the sparse representation.
On the bitmap parsed from `"010"` (the single run `[1, 2)`), calling
`set(1, true)` — a position whose bit is already 1 — shifts the run to
`[0, 1)` instead of leaving it alone, so the subsequent `get(1)` returns
`false` although the claim requires `set(p, v)` followed by `get(p)` to
return `v`. -/
theorem claim_C1_failing :
    ((SparseBitmap.fromString ['0', '1', '0']).set 1 true).map (fun b => b.get 1) =
      some false := by
  decide

/-- C2 (code bug): the run-list invariant is not preserved by in-range
`set` calls.  On the bitmap parsed from `"01"` (the single run `[0, 1)`),
the in-range call `set(1, false)` hits the `position == run.end()` branch
of `set_zero` (position 1 collides with the run because the collision scan
is inclusive of `end()`) and decrements the length of a run whose bit at
that position was already 0, leaving a zero-length run — violating the
invariant that every run has positive length. -/
theorem claim_C2_failing :
    ((SparseBitmap.fromString ['0', '1']).set 1 false).map (fun b => b.runs) =
      some [Run.mk 0 0] := by
  decide

/-- C3 (code bug): a third fault exists besides the two documented ones.
On the bitmap parsed from `"101"` (runs `[0,1)` and `[2,3)`, satisfying the
documented invariant) the in-range call `set(2, true)` removes the
predecessor run found by the merge scan and then re-indexes the runs list
with the stale index 1, which is now out of bounds: the
`get_mut(index).unwrap()` in `set_one` panics (modelled as `none`). -/
theorem claim_C3_failing :
    (SparseBitmap.fromString ['1', '0', '1']).set 2 true = none := by
  decide

/-- C4 (corrected), counterexample: dense and sparse disagree for NOT and
XOR.  NOT: on `"001"` the dense complement reads `true` at position 1 while
the sparse complement (which emits no trailing gap) reads `false`.  XOR: on
the pair `"00001"`, `"100000"` the tail branch of the sparse merge walk
appends the whole span `[previous_end, rhs_end)`, wrongly filling the gap
`[1, 5)`, so the sparse result reads `true` at position 1 while the dense
result reads `false`. -/
theorem claim_C4_counterexample :
    ((Bitmap.fromString ['0', '0', '1']).map (fun b => b.not.get 1) = some (some true) ∧
      (SparseBitmap.not (SparseBitmap.fromString ['0', '0', '1'])).get 1 = false) ∧
    (((Bitmap.fromString ['0', '0', '0', '0', '1']).bind (fun a =>
        (Bitmap.fromString ['1', '0', '0', '0', '0', '0']).bind (fun b => a.xor b))).map
        (fun c => c.get 1) = some (some false) ∧
      (SparseBitmap.xor (SparseBitmap.fromString ['0', '0', '0', '0', '1'])
        (SparseBitmap.fromString ['1', '0', '0', '0', '0', '0'])).get 1 = true) := by
  refine ⟨⟨by decide, by decide⟩, by decide, ?_⟩
  have hruns : xorRuns [] none [Run.mk 0 1] [Run.mk 5 1] = [Run.mk 0 6] := by
    simp [xorRuns, SparseBitmap.append, Run.union, Run.matches, Run.contains, Run.stop]
  show (SparseBitmap.mk (xorRuns [] none [Run.mk 0 1] [Run.mk 5 1]) 5).get 1 = true
  rw [hruns]
  decide

/-- C4 (corrected, amended claim): for every pair of bit-strings over
`{0,1}`, the dense and sparse constructions agree on `get` at every
position below the size, and applying the same AND or OR to the dense pair
and to the sparse pair yields bitmaps that agree on `get` at every position
below the result size.  (The analogous statement for XOR and NOT is false,
see the counterexample.) -/
theorem claim_C4 (s t : List Char) (hs : ∀ c ∈ s, c = '0' ∨ c = '1')
    (ht : ∀ c ∈ t, c = '0' ∨ c = '1') :
    (∀ p, p < s.length →
      (Bitmap.fromString s).map (fun b => b.get p) =
        some (some ((SparseBitmap.fromString s).get p))) ∧
    (∀ p, p < min s.length t.length →
      ((Bitmap.fromString s).bind (fun a =>
          (Bitmap.fromString t).bind (fun b => a.and b))).map (fun c => c.get p) =
        some (some ((SparseBitmap.and (SparseBitmap.fromString s)
          (SparseBitmap.fromString t)).get p))) ∧
    (∀ p, p < min s.length t.length →
      ((Bitmap.fromString s).bind (fun a =>
          (Bitmap.fromString t).bind (fun b => a.or b))).map (fun c => c.get p) =
        some (some ((SparseBitmap.or (SparseBitmap.fromString s)
          (SparseBitmap.fromString t)).get p))) := by
  obtain ⟨a, ha, hasize, halen, haget⟩ := dense_fromString_get s hs
  obtain ⟨b, hb, hbsize, hblen, hbget⟩ := dense_fromString_get t ht
  have hmin : min a.size b.size = min s.length t.length := by rw [hasize, hbsize]
  have hca : chunksCount (min a.size b.size) wordBits ≤ a.chunks.length := by
    rw [hmin, halen]
    exact chunksCount_mono (Nat.min_le_left _ _)
  have hcb : chunksCount (min a.size b.size) wordBits ≤ b.chunks.length := by
    rw [hmin, hblen]
    exact chunksCount_mono (Nat.min_le_right _ _)
  refine ⟨fun p hp => ?_, fun p hp => ?_, fun p hp => ?_⟩
  · rw [ha, Option.map_some', haget p hp]
  · obtain ⟨c, hc, hcsize, hcget⟩ :=
      Bitmap.binOp_get (· &&& ·) (· && ·) (fun x y j => Nat.testBit_and x y j) a b hca hcb
    obtain ⟨x, y, hax, hby, hcp⟩ := hcget p (by rw [hmin]; exact hp)
    rw [ha, hb]
    show (Bitmap.and a b).map (fun c => c.get p) = _
    rw [show Bitmap.and a b = some c from hc, Option.map_some', hcp]
    rw [sparse_and_get s t p hp]
    have hx : x = (SparseBitmap.fromString s).get p := by
      have hg := haget p (by omega)
      rw [hax] at hg
      exact Option.some.inj hg
    have hy : y = (SparseBitmap.fromString t).get p := by
      have hg := hbget p (by omega)
      rw [hby] at hg
      exact Option.some.inj hg
    rw [hx, hy]
  · obtain ⟨c, hc, hcsize, hcget⟩ :=
      Bitmap.binOp_get (· ||| ·) (· || ·) (fun x y j => Nat.testBit_or x y j) a b hca hcb
    obtain ⟨x, y, hax, hby, hcp⟩ := hcget p (by rw [hmin]; exact hp)
    rw [ha, hb]
    show (Bitmap.or a b).map (fun c => c.get p) = _
    rw [show Bitmap.or a b = some c from hc, Option.map_some', hcp]
    rw [sparse_or_get s t p hp]
    have hx : x = (SparseBitmap.fromString s).get p := by
      have hg := haget p (by omega)
      rw [hax] at hg
      exact Option.some.inj hg
    have hy : y = (SparseBitmap.fromString t).get p := by
      have hg := hbget p (by omega)
      rw [hby] at hg
      exact Option.some.inj hg
    rw [hx, hy]

theorem claim_C4_witness :
    (Bitmap.fromString ['1', '0']).map (fun b => b.get 0) =
      some (some ((SparseBitmap.fromString ['1', '0']).get 0)) ∧
    ((Bitmap.fromString ['1', '0']).bind (fun a =>
        (Bitmap.fromString ['1', '1']).bind (fun b => a.and b))).map (fun c => c.get 0) =
      some (some ((SparseBitmap.and (SparseBitmap.fromString ['1', '0'])
        (SparseBitmap.fromString ['1', '1'])).get 0)) ∧
    ((Bitmap.fromString ['1', '0']).bind (fun a =>
        (Bitmap.fromString ['1', '1']).bind (fun b => a.or b))).map (fun c => c.get 0) =
      some (some ((SparseBitmap.or (SparseBitmap.fromString ['1', '0'])
        (SparseBitmap.fromString ['1', '1'])).get 0)) := by
  obtain ⟨h1, h2, h3⟩ := claim_C4 ['1', '0'] ['1', '1'] (by decide) (by decide)
  exact ⟨h1 0 (by decide), h2 0 (by decide), h3 0 (by decide)⟩

/-- C5 (code bug): the interior clear drops a length-1 right part.  On the
bitmap parsed from `"111"` (the run `[0, 3)`), clearing interior position 1
should split into `[0, 1)` and `[2, 3)`; the push condition
`start < end - 1` (i.e. `2 < 2`) rejects the length-1 right part, so bit 2
is silently cleared as well: `get(2)` returns `false` and the runs list is
just `[0, 1)`. -/
theorem claim_C5_failing :
    ((SparseBitmap.fromString ['1', '1', '1']).set 1 false).map
      (fun b => (b.get 2, b.runs)) = some (false, [Run.mk 0 1]) := by
  decide

/-- C6 (confirmed): on a sparse bitmap with at least one run, well-formed
and ascending, NOT covers exactly the gaps below the last run's end — so
it inverts `get` at every position below the last run's end, and returns
`false` (no trailing gap is emitted) at every position from the last run's
end on, in particular up to `size`. -/
theorem claim_C6 (x : SparseBitmap) (hne : x.runs ≠ [])
    (hpw : x.runs.Pairwise (fun a b => a.stop < b.start))
    (_hpos : ∀ r ∈ x.runs, 0 < r.length)
    (hsize : lastStop x.runs ≤ x.size) :
    (∀ p, p < lastStop x.runs → x.not.get p = !x.get p) ∧
    (∀ p, lastStop x.runs ≤ p → x.not.get p = false) := by
  have hne' := hne
  constructor
  · intro p hp
    rw [show x.not.get p = (decide (p ≤ x.size) && coversList (notRunsAux 0 x.runs) p) from
      get_eq_coversList x.not p]
    rw [coversList_notRunsAux x.runs 0 p hpw (fun r _ => Nat.zero_le _)]
    rw [get_eq_coversList x p]
    rw [decide_eq_true (show p ≤ x.size by omega)]
    rw [decide_eq_true (Nat.zero_le p), decide_eq_true hp]
    simp only [Bool.true_and]
  · intro p hp
    rw [show x.not.get p = (decide (p ≤ x.size) && coversList (notRunsAux 0 x.runs) p) from
      get_eq_coversList x.not p]
    rw [coversList_notRunsAux x.runs 0 p hpw (fun r _ => Nat.zero_le _)]
    rw [decide_eq_false (show ¬p < lastStop x.runs by omega)]
    simp

theorem claim_C6_witness :
    (SparseBitmap.mk [Run.mk 1 1, Run.mk 3 1] 5).not.get 0 =
      !(SparseBitmap.mk [Run.mk 1 1, Run.mk 3 1] 5).get 0 ∧
    (SparseBitmap.mk [Run.mk 1 1, Run.mk 3 1] 5).not.get 4 = false := by
  have h := claim_C6 (SparseBitmap.mk [Run.mk 1 1, Run.mk 3 1] 5) (by decide)
    (by decide) (by decide) (by decide)
  exact ⟨h.1 0 (by decide), h.2 4 (by decide)⟩

/-- C7 (corrected), counterexample: `get` at position `== size` can return
`true`.  OR-ing the all-ones bitmaps of sizes 10 and 5 yields a result of
size 5 whose single run `[0, 10)` extends past the size, so `get(5)` — a
position at (not below) the declared size — returns `true`, contradicting
the claim that `get` returns `false` at every position at or beyond the
size. -/
theorem claim_C7_counterexample :
    (SparseBitmap.or
        (SparseBitmap.fromString ['1', '1', '1', '1', '1', '1', '1', '1', '1', '1'])
        (SparseBitmap.fromString ['1', '1', '1', '1', '1'])).get 5 = true ∧
    (SparseBitmap.or
        (SparseBitmap.fromString ['1', '1', '1', '1', '1', '1', '1', '1', '1', '1'])
        (SparseBitmap.fromString ['1', '1', '1', '1', '1'])).size = 5 := by
  have hruns : orRuns [] [Run.mk 0 10] [Run.mk 0 5] = [Run.mk 0 10] := by
    simp [orRuns, SparseBitmap.append, Run.union, Run.matches, Run.contains, Run.stop]
  constructor
  · show (SparseBitmap.mk (orRuns [] [Run.mk 0 10] [Run.mk 0 5]) 5).get 5 = true
    rw [hruns]
    decide
  · rfl

/-- C7 (corrected, amended claim): `get` is total and returns `false` at
every position strictly greater than the declared size; at position
`== size` the bounds check `position > size` lets the scan run, and a run
extending to or past the size (as operator results can produce, since runs
are not trimmed to the `min` size) makes it return `true`. -/
theorem claim_C7 (b : SparseBitmap) (p : Nat) (hp : b.size < p) : b.get p = false := by
  unfold SparseBitmap.get
  rw [if_pos hp]

theorem claim_C7_witness : (SparseBitmap.new 3).get 10 = false ∧ 3 < 10 :=
  ⟨claim_C7 (SparseBitmap.new 3) 10 (by decide), by decide⟩

/-- C8 (corrected), counterexample: sparse double negation fails.  For the
bitmap parsed from `"001"` (the single run `[0, 1)`), `NOT` emits no runs
(no gap precedes the run and no trailing gap is emitted), so `NOT(NOT(x))`
is empty and `get(0)` returns `false` while `x.get(0)` is `true`, with
`0 < size = 3`. -/
theorem claim_C8_counterexample :
    (SparseBitmap.fromString ['0', '0', '1']).not.not.get 0 = false ∧
    (SparseBitmap.fromString ['0', '0', '1']).get 0 = true ∧
    (SparseBitmap.fromString ['0', '0', '1']).size = 3 := by
  decide

/-- C8 (corrected, amended claim): double negation holds for the dense
bitmap at every position (the 64-bit mask cancels word-wise); for the
sparse bitmap, `NOT(NOT(x))` instead equals `x` with its final run
deleted whenever `x`'s runs are well-formed, so the two agree exactly away
from the positions of `x`'s last run and double negation holds only for
bitmaps with no set bits. -/
theorem claim_C8 :
    (∀ (x : Bitmap) (p : Nat), x.not.not.get p = x.get p) ∧
    (∀ y : SparseBitmap, RunsWF y.runs → y.not.not.runs = y.runs.dropLast) := by
  constructor
  · intro x p
    rw [Bitmap.not_get, Bitmap.not_get]
    cases x.get p with
    | none => rfl
    | some v => simp [Bool.not_not]
  · intro y hwf
    exact notRuns_notRuns hwf

theorem claim_C8_witness :
    (Bitmap.new 5).not.not.get 2 = (Bitmap.new 5).get 2 ∧
    (SparseBitmap.fromString ['1', '0', '1']).not.not.runs =
      (SparseBitmap.fromString ['1', '0', '1']).runs.dropLast :=
  ⟨claim_C8.1 (Bitmap.new 5) 2,
    claim_C8.2 (SparseBitmap.fromString ['1', '0', '1']) ⟨by decide, by decide⟩⟩

/-- C9 (confirmed): for every string over `'0'`/`'1'`,
`SparseBitmap::from(s).to_string() == s`, and `Bitmap::from(s).get(i)` is
true exactly when the character of `s` at distance `i` from the right end
is `'1'`, for every `i < s.len()`. -/
theorem claim_C9 (s : List Char) (hbin : ∀ c ∈ s, c = '0' ∨ c = '1') :
    SparseBitmap.toString (SparseBitmap.fromString s) = s ∧
    ∀ i, i < s.length →
      (Bitmap.fromString s).map (fun b => b.get i) =
        some (some (s.reverse.getD i ' ' == '1')) := by
  refine ⟨toString_fromString s hbin, fun i hi => ?_⟩
  obtain ⟨b, hb, _, _, hget⟩ := Bitmap.fromString_spec s hbin
  rw [hb, Option.map_some', hget i, if_pos hi]

theorem claim_C9_witness :
    SparseBitmap.toString (SparseBitmap.fromString ['1', '0', '1']) = ['1', '0', '1'] ∧
    (Bitmap.fromString ['1', '0', '1']).map (fun b => b.get 0) =
      some (some ((['1', '0', '1'] : List Char).reverse.getD 0 ' ' == '1')) := by
  obtain ⟨h1, h2⟩ := claim_C9 ['1', '0', '1'] (by decide)
  exact ⟨h1, h2 0 (by decide)⟩

/-- C10 (corrected), counterexample: the padding bits of a dense bitmap
are not always zero, so the claim fails as stated for every bitmap.  Take
`x := NOT(Bitmap::from("1"))`: its size 1 is not a multiple of 64, it has
one allocated word, and its padding bits are all ones; `NOT(x).get(1)`
returns `false`, not `true`. -/
theorem claim_C10_counterexample :
    (Bitmap.fromString ['1']).map (fun b => b.not.not.get 1) = some (some false) ∧
    (Bitmap.fromString ['1']).map (fun b => (b.not.size, b.not.chunks.length)) =
      some (1, 1) := by
  decide

/-- C10 (corrected, amended claim): for every dense bitmap whose bit at a
padding position `p` (with `size ≤ p` below the allocated words) currently
reads as zero — as holds for bitmaps built by construction, `set` and the
binary operators, though not for NOT results — `NOT` makes that padding
position readable as `true`, because `get` does not mask the position
against `size`. -/
theorem claim_C10 (x : Bitmap) (p : Nat) (_hsize : x.size ≤ p)
    (_hlen : p < wordBits * x.chunks.length) (hpad : x.get p = some false) :
    x.not.get p = some true := by
  rw [Bitmap.not_get, hpad]
  rfl

theorem claim_C10_witness :
    (Bitmap.new 5).get 7 = some false ∧ (Bitmap.new 5).not.get 7 = some true :=
  ⟨by decide, claim_C10 (Bitmap.new 5) 7 (by decide) (by decide) (by decide)⟩
